import Mathlib

/-!
Verification of the generate/validate/deploy loop of
`src/untested/py-llm-plus.py` (Arduino UNO Q ML-powered sketch generator).

Python strings are modelled as `List Char` (ASCII; the script's inputs and
configuration are ASCII).  The two `re` patterns used by the script,

  code fence : three backticks, optional tag cpp|c|arduino, \s*, newline,
               lazy capture, newline, three backticks   (re.DOTALL)
  while scan : while \s* ( [^)]+ ) \s* brace [^}]* brace (re.DOTALL)

are embedded as explicit matchers with Python's leftmost, non-overlapping
`re.findall` scan order, greedy/lazy quantifier semantics and alternation
backtracking.  Since neither pattern contains a dot, DOTALL is a no-op.
-/

/-- Python `\s` on the ASCII range: space, tab, newline, carriage return,
vertical tab, form feed. -/
def isWs (c : Char) : Bool :=
  ( c == ' ') || ( c == '\t') || ( c == '\n') || ( c == '\r') ||
  ( c == Char.ofNat 11) || ( c == Char.ofNat 12)

/-- Index of the first occurrence of `pat` in `s` (Python `str.find` /
the anchor search of a lazy regex group). -/
def findSub (pat : List Char) : List Char → Option Nat
  | [] => if pat.isPrefixOf [] then some 0 else none
  | c :: t =>
    if pat.isPrefixOf ( c :: t) then some 0
    else (findSub pat t).map ( fun i => i + 1)

/-- Python `pat in s` (exact, case-sensitive substring containment). -/
def infixOfB (pat s : List Char) : Bool := (findSub pat s).isSome

/-- The three-backtick fence delimiter. -/
def ticks : List Char := "```".toList

/-- Newline followed by the closing fence: the terminator the lazy group
of the code-block pattern searches for. -/
def nlTicks : List Char := "\n```".toList

/-- The lazy `(.*?)` capture followed by the literal closing `\n` + fence:
takes the shortest prefix up to the first occurrence of the terminator,
returning (capture, text after the whole terminator). -/
def captureSearch (s : List Char) : Option (List Char × List Char) :=
  match findSub nlTicks s with
  | some i => some (s.take i, s.drop (i + 4))
  | none => none

/-- Length of the maximal `\s*` run at the head of `s`. -/
def wsTakeLen : List Char → Nat
  | [] => 0
  | c :: t => if isWs c then wsTakeLen t + 1 else 0

/-- One backtracking alternative for `\s*\n`: the `\s*` part consumes
exactly `k` characters, the literal `\n` must sit at index `k`. -/
def tryNl (s : List Char) (k : Nat) : Option (List Char × List Char) :=
  match s.drop k with
  | '\n' :: r => captureSearch r
  | _ => none

/-- Option alternation (first success wins), mirroring regex backtracking
order. -/
def oOr (a b : Option (List Char × List Char)) : Option (List Char × List Char) :=
  match a with
  | some x => some x
  | none => b

/-- Greedy `\s*` followed by `\n` and the lazy capture: try the longest
whitespace run first, backtracking down to the empty run. -/
def tryKs (s : List Char) : Nat → Option (List Char × List Char)
  | 0 => tryNl s 0
  | k + 1 => oOr (tryNl s (k + 1)) (tryKs s k)

/-- Match `\s*\n(.*?)\n` + fence at the head of `s`. -/
def matchWs (s : List Char) : Option (List Char × List Char) :=
  tryKs s (wsTakeLen s)

/-- After the opening fence: the optional language tag `(?:cpp|c|arduino)?`
with regex alternation order (cpp, c, arduino, empty), then `\s*\n(.*?)\n`
+ closing fence. -/
def afterTicks (s : List Char) : Option (List Char × List Char) :=
  oOr ( if ("cpp".toList).isPrefixOf s then matchWs (s.drop 3) else none)
  (oOr ( if ("c".toList).isPrefixOf s then matchWs (s.drop 1) else none)
  (oOr ( if ("arduino".toList).isPrefixOf s then matchWs (s.drop 7) else none)
      (matchWs s)))

/-- Attempt the code-block pattern anchored at the head of `s`; on success
returns (group 1, rest of the text after the match). -/
def matchAt (s : List Char) : Option (List Char × List Char) :=
  if ticks.isPrefixOf s then afterTicks (s.drop 3) else none

/-- Fuel-driven `re.findall` scan for the code-block pattern: leftmost,
non-overlapping, resuming after each match; collects group 1 of each
match.  `fuel ≥ s.length` makes the scan complete. -/
def findallF : Nat → List Char → List (List Char)
  | 0, _ => []
  | fuel + 1, s =>
    match matchAt s with
    | some (cap, rest) => cap :: findallF fuel rest
    | none =>
      match s with
      | [] => []
      | _ :: t => findallF fuel t

/-- `re.findall(code_block_pattern, text, re.DOTALL)` of
`extract_code_from_markdown`. -/
def pyFindall (s : List Char) : List (List Char) := findallF s.length s

/-- Python `str.strip()` on the ASCII range: drop leading whitespace. -/
def stripLeft (s : List Char) : List Char := s.dropWhile isWs

/-- Python `str.strip()` on the ASCII range: drop trailing whitespace. -/
def stripRight (s : List Char) : List Char := (stripLeft s.reverse).reverse

/-- Python `str.strip()` on the ASCII range. -/
def pyStrip (s : List Char) : List Char := stripRight (stripLeft s)

/-- `extract_code_from_markdown` (py-llm-plus.py lines 214-224): first
fenced block's stripped group if any match exists, otherwise the whole
text stripped. -/
def extract_code_from_markdown (text : List Char) : List Char :=
  match pyFindall text with
  | m :: _ => pyStrip m
  | [] => pyStrip text

/-- `SAFETY_KEYWORDS` (py-llm-plus.py lines 94-100). -/
def SAFETY_KEYWORDS : List (List Char) :=
  [ "EEPROM.write".toList, "pinMode(0".toList, "pinMode(1".toList,
    "while(true)".toList, "while(1)".toList]

/-- `MAX_SKETCH_LINES` (py-llm-plus.py line 103). -/
def MAX_SKETCH_LINES : Nat := 100

/-- Python `len(code.split(chr(10)))`: number of newline-delimited lines,
i.e. newline count plus one (also for the empty string). -/
def pyLineCount (s : List Char) : Nat := s.countP ( fun c => c == '\n') + 1

/-- Python `str.lower()` on the ASCII range. -/
def toLowerL (s : List Char) : List Char := s.map Char.toLower

/-- First failing forbidden-keyword, if any, with its report
(py-llm-plus.py lines 234-236). -/
def keywordFail (code : List Char) : Option (List Char) :=
  (SAFETY_KEYWORDS.find? ( fun k => infixOfB k code)).map
    ( fun k => ("Contains dangerous keyword: ".toList) ++ k)

/-- Required setup()/loop() structure scan (py-llm-plus.py lines 239-243). -/
def structureFail (code : List Char) : Option (List Char) :=
  if !(infixOfB ("void setup()".toList) code) &&
     !(infixOfB ("void setup ()".toList) code) then
    some ("Missing setup() function".toList)
  else if !(infixOfB ("void loop()".toList) code) &&
          !(infixOfB ("void loop ()".toList) code) then
    some ("Missing loop() function".toList)
  else none

/-- Line-budget scan (py-llm-plus.py lines 246-248). -/
def lineFail (code : List Char) : Option (List Char) :=
  if MAX_SKETCH_LINES < pyLineCount code then
    some (("Too many lines: ".toList) ++ (toString (pyLineCount code)).toList ++
          (" (max: ".toList) ++ (toString MAX_SKETCH_LINES).toList ++ (")".toList))
  else none

/-- Attempt the while-loop pattern anchored at the head of `s`; on success
returns the length of the matched region.  Every character class of the
pattern excludes the literal that follows it, so the greedy quantifiers
are deterministic here (no backtracking can succeed where the maximal
run fails). -/
def matchWhileAt (s : List Char) : Option Nat :=
  if ("while".toList).isPrefixOf s then
    match (s.drop 5), (wsTakeLen (s.drop 5)) with
    | s1, w1 =>
      match s1.drop w1 with
      | '(' :: s3 =>
        match (s3.takeWhile ( fun c => c != ')')).length with
        | 0 => none
        | a + 1 =>
          match s3.drop (a + 1) with
          | ')' :: s4 =>
            match wsTakeLen s4 with
            | w2 =>
              match s4.drop w2 with
              | '{' :: s6 =>
                match (s6.takeWhile ( fun c => c != '}')).length with
                | b =>
                  match s6.drop b with
                  | '}' :: _ => some (5 + w1 + 1 + (a + 1) + 1 + w2 + 1 + b + 1)
                  | _ => none
              | _ => none
          | _ => none
      | _ => none
  else none

/-- Fuel-driven `re.findall` scan for the while-loop pattern, collecting
the full matched regions. -/
def whileFindF : Nat → List Char → List (List Char)
  | 0, _ => []
  | fuel + 1, s =>
    match matchWhileAt s with
    | some len => s.take len :: whileFindF fuel (s.drop len)
    | none =>
      match s with
      | [] => []
      | _ :: t => whileFindF fuel t

/-- All regions of `code` matched by the while-loop pattern
(py-llm-plus.py lines 251-252). -/
def whileMatches (code : List Char) : List (List Char) :=
  whileFindF code.length code

/-- A matched while region is flagged when it contains neither "delay"
nor "millis", case-insensitively (py-llm-plus.py line 254). -/
def whileScanBad (m : List Char) : Bool :=
  !(infixOfB ("delay".toList) (toLowerL m)) &&
  !(infixOfB ("millis".toList) (toLowerL m))

/-- Unbounded-while scan (py-llm-plus.py lines 251-255). -/
def whileFail (code : List Char) : Option (List Char) :=
  if (whileMatches code).any whileScanBad then
    some ("Contains while loop without delay (potential hang)".toList)
  else none

/-- `validate_sketch_safety` (py-llm-plus.py lines 230-257): the four
checks in source order, short-circuiting at the first failure. -/
def validate_sketch_safety (code : List Char) : Bool × List Char :=
  match keywordFail code with
  | some r => (false, r)
  | none =>
    match structureFail code with
    | some r => (false, r)
    | none =>
      match lineFail code with
      | some r => (false, r)
      | none =>
        match whileFail code with
        | some r => (false, r)
        | none => (true, "Safe".toList)

/-- Outcome of the HTTP call made by `query_ollama`: a 2xx response whose
JSON body may or may not carry a "response" field, a 2xx response with a
malformed body (`response.json()` raises, caught by the handler), a
non-200 status, or a raised transport/timeout error (caught by the
handler). -/
inductive OllamaOutcome where
  | ok (responseField : Option (List Char))
  | okMalformed
  | badStatus (code : Nat)
  | netError
deriving DecidableEq

/-- Whether the backend call failed in one of the spec's four failure
modes (non-success status, timeout, transport error, malformed body). -/
def ollamaFailed : OllamaOutcome → Bool
  | .ok _ => false
  | _ => true

/-- `query_ollama` (py-llm-plus.py lines 147-172): the whole body is
wrapped in try/except, so every failure mode yields `None`; on a 200
response it returns `result.get("response", "")`. -/
def query_ollama : OllamaOutcome → Option (List Char)
  | .ok f => some (f.getD [])
  | .okMalformed => none
  | .badStatus _ => none
  | .netError => none

/-- Outcome of the chat-completion call made by `query_openai`: the first
choice's message content, or any raised error (connection, auth, timeout,
malformed response), caught by the handler. -/
inductive OpenAIOutcome where
  | ok (content : List Char)
  | apiError
deriving DecidableEq

/-- Whether the remote-backend call failed. -/
def openaiFailed : OpenAIOutcome → Bool
  | .ok _ => false
  | .apiError => true

/-- `query_openai` (py-llm-plus.py lines 174-196): wrapped in try/except
returning `None` on any raised error, otherwise the content text. -/
def query_openai : OpenAIOutcome → Option (List Char)
  | .ok c => some c
  | .apiError => none

/-- `generate_sketch_with_llm` (py-llm-plus.py lines 198-212), given the
raw backend result (already an `Option` per the client contract).  Python
`if code:` is false for both `None` and the empty string, so an empty
backend success skips extraction and falls through to `return None`. -/
def generate_sketch_with_llm (resp : Option (List Char)) : Option (List Char) :=
  match resp with
  | some code => if code.isEmpty then none else some (extract_code_from_markdown code)
  | none => none

/-- The on-disk bundle written by `create_sketch_directory` +
`write_sketch_files` (py-llm-plus.py lines 263-298): directory keyed by
the sketch number, sketch.ino body, metadata line count. -/
structure ArtifactRecord where
  sketchNumber : Nat
  code : List Char
  lineCount : Nat
deriving DecidableEq

/-- The record persisted for cycle `n` with code `c`. -/
def mkArtifactRecord (n : Nat) (c : List Char) : ArtifactRecord :=
  ⟨n, c, pyLineCount c⟩

/-- Observable result of one iteration of the `while True:` body of
`main` (py-llm-plus.py lines 432-473): what was persisted, the value of
`sketch_number` after the iteration, and the deployment outcome when the
Deployer was invoked (`none` when the cycle exited early).  Every branch
ends in the same `time.sleep` call. -/
structure CycleResult where
  record : Option ArtifactRecord
  counter : Nat
  deployed : Option Bool
deriving DecidableEq

/-- One iteration of the main loop body, parameterised by the validator
so that validator-independence of early exits is expressible.  `resp` is
the backend result, `deployOk` the exit status of the `applab deploy`
subprocess, `n` the current `sketch_number`. -/
def runCycleWith (v : List Char → Bool × List Char) (resp : Option (List Char))
    (deployOk : Bool) (n : Nat) : CycleResult :=
  match generate_sketch_with_llm resp with
  | none => ⟨none, n, none⟩
  | some c =>
    if c.isEmpty then ⟨none, n, none⟩
    else if (v c).1 then ⟨some (mkArtifactRecord n c), n + 1, some deployOk⟩
    else ⟨none, n, none⟩

/-- One iteration of the main loop body with the script's validator. -/
def runCycle (resp : Option (List Char)) (deployOk : Bool) (n : Nat) : CycleResult :=
  runCycleWith validate_sketch_safety resp deployOk n

/-- `sketch_number = 1` (py-llm-plus.py line 429). -/
def initialSketchNumber : Nat := 1

/-! Concrete inputs used by witnesses and counterexamples. -/

/-- A generated text that fails the forbidden-keyword scan. -/
def badKeywordCode : List Char := "EEPROM.write(9);".toList

/-- A generated text that triggers the RX/TX-pin keyword and therefore
fails validation. -/
def cexCodeC3 : List Char := "pinMode(0, OUTPUT);".toList

/-- A generated text that passes all four safety checks. -/
def goodCode : List Char :=
  "void setup() \x7b\x7d\nvoid loop() \x7b delay(100); \x7d".toList

/-- Code whose single while region has its time primitive in the loop
condition and none in the body. -/
def whileCondCode : List Char :=
  "void setup() \x7b\x7d\nvoid loop() \x7b\x7d\nwhile (millis < 100) \x7b x = 1; \x7d".toList

/-- The region the while pattern matches inside `whileCondCode`. -/
def whileCondRegion : List Char :=
  "while (millis < 100) \x7b x = 1; \x7d".toList

/-- The brace-delimited body of that region. -/
def whileCondBody : List Char := " x = 1; ".toList

/-- Code whose single while region has no delay/millis anywhere. -/
def whileBadCode : List Char :=
  "void setup() \x7b\x7d\nvoid loop() \x7b\x7d\nwhile (x) \x7b y = 1; \x7d".toList

/-- 101 newline-delimited lines: one over the budget. -/
def overBudgetCode : List Char := List.replicate 100 '\n'

/-- Exactly 100 newline-delimited lines: at the budget. -/
def atBudgetCode : List Char := List.replicate 99 '\n'

/-- A model reply with one fenced cpp block. -/
def fencedText : List Char := "some words\n```cpp\nint x;\n```\nmore words".toList

/-- A model reply with no fence at all. -/
def plainText : List Char := "  int x = 1;  ".toList

/-! Claim theorems. -/

/-- C1: per cycle, an ArtifactRecord is persisted only when the extracted
artifact passed `validate_sketch_safety`; on a failed verdict nothing is
persisted and the cycle counter is unchanged. -/
theorem persist_only_after_validation (resp : Option (List Char)) (d : Bool) (n : Nat) :
    (∀ r : ArtifactRecord, (runCycle resp d n).record = some r →
        (validate_sketch_safety r.code).1 = true ∧
        generate_sketch_with_llm resp = some r.code) ∧
    (∀ c : List Char, generate_sketch_with_llm resp = some c →
        (validate_sketch_safety c).1 = false →
        (runCycle resp d n).record = none ∧ (runCycle resp d n).counter = n) := by
  unfold runCycle runCycleWith
  cases hg : generate_sketch_with_llm resp with
  | none => simp
  | some c =>
    cases he : c.isEmpty with
    | true => simp [he]
    | false =>
      cases hv : (validate_sketch_safety c).1 with
      | true =>
        simp [he, hv]
        exact ⟨hv, rfl⟩
      | false => simp [he, hv]

/-- C1 witness: a cycle whose artifact contains `EEPROM.write` persists
nothing and leaves the counter at 5. -/
theorem persist_only_after_validation_witness :
    (runCycle (some badKeywordCode) true 5).record = none ∧
    (runCycle (some badKeywordCode) true 5).counter = 5 :=
  (persist_only_after_validation (some badKeywordCode) true 5).2
    badKeywordCode (by decide) (by decide)

/-- C2: the counter advances by exactly 1 on every cycle that reaches the
deploy step (generated, validated, persisted) and by 0 on every early
exit, and both the persisted record and the counter are independent of
the deployment outcome. -/
theorem counter_unit_per_deploy (resp : Option (List Char)) (d : Bool) (n : Nat) :
    ((runCycle resp d n).deployed.isSome = true → (runCycle resp d n).counter = n + 1) ∧
    ((runCycle resp d n).deployed = none → (runCycle resp d n).counter = n) ∧
    (∀ d' : Bool, (runCycle resp d' n).record = (runCycle resp d n).record ∧
        (runCycle resp d' n).counter = (runCycle resp d n).counter) := by
  unfold runCycle runCycleWith
  cases hg : generate_sketch_with_llm resp with
  | none => simp
  | some c =>
    cases he : c.isEmpty with
    | true => simp [he]
    | false =>
      cases hv : (validate_sketch_safety c).1 with
      | true => simp [he, hv]
      | false => simp [he, hv]

/-- C2 witness: a fully successful cycle starting at counter 3 ends at 4
even though deployment failed. -/
theorem counter_unit_per_deploy_witness :
    (runCycle (some goodCode) false 3).counter = 3 + 1 :=
  (counter_unit_per_deploy (some goodCode) false 3).1 (by decide)

/-- C3 counterexample: a cycle whose generation succeeded but whose
artifact failed validation leaves the counter at 7, refuting "incremented
exactly once per successfully attempted cycle, including cycles that fail
validation or generation". -/
theorem counter_stuck_on_validation_failure :
    generate_sketch_with_llm (some cexCodeC3) = some cexCodeC3 ∧
    (validate_sketch_safety cexCodeC3).1 = false ∧
    (runCycle (some cexCodeC3) false 7).counter = 7 := by decide

/-- C3 amended: the counter starts at 1, never decreases, changes by at
most 1 per cycle, and advances exactly on the cycles that persist an
ArtifactRecord (so not on failed generation or failed validation). -/
theorem counter_monotonic_unit_step :
    initialSketchNumber = 1 ∧
    ∀ (resp : Option (List Char)) (d : Bool) (n : Nat),
      n ≤ (runCycle resp d n).counter ∧
      (runCycle resp d n).counter ≤ n + 1 ∧
      ((runCycle resp d n).counter = n + 1 ↔ (runCycle resp d n).record.isSome = true) := by
  refine ⟨rfl, fun resp d n => ?_⟩
  unfold runCycle runCycleWith
  cases hg : generate_sketch_with_llm resp with
  | none => simp
  | some c =>
    cases he : c.isEmpty with
    | true => simp [he]
    | false =>
      cases hv : (validate_sketch_safety c).1 with
      | true => simp [he, hv]
      | false => simp [he, hv]

/-- C4: any code containing a configured forbidden keyword gets a fail
verdict (the keyword scan runs first, so no such code is ever passed),
and the reported reason names a forbidden keyword contained in the code
(the first matching one in configuration order). -/
theorem forbidden_keyword_fails (code : List Char)
    (h : ∃ k ∈ SAFETY_KEYWORDS, infixOfB k code = true) :
    (validate_sketch_safety code).1 = false ∧
    ∃ k ∈ SAFETY_KEYWORDS, infixOfB k code = true ∧
      (validate_sketch_safety code).2 = ("Contains dangerous keyword: ".toList) ++ k := by
  have hs : (SAFETY_KEYWORDS.find? ( fun k => infixOfB k code)).isSome := by
    rw [List.find?_isSome]
    obtain ⟨k, hk, hik⟩ := h
    exact ⟨k, hk, hik⟩
  obtain ⟨k, hk⟩ := Option.isSome_iff_exists.mp hs
  have hmem : k ∈ SAFETY_KEYWORDS := List.mem_of_find?_eq_some hk
  have hik : infixOfB k code = true := by simpa using List.find?_some hk
  have hkf : keywordFail code = some (("Contains dangerous keyword: ".toList) ++ k) := by
    unfold keywordFail
    rw [hk]
    rfl
  unfold validate_sketch_safety
  rw [hkf]
  exact ⟨rfl, k, hmem, hik, rfl⟩

/-- C4 witness: code containing `pinMode(0` fails with the matching
reason. -/
theorem forbidden_keyword_fails_witness :
    (validate_sketch_safety cexCodeC3).1 = false ∧
    ∃ k ∈ SAFETY_KEYWORDS, infixOfB k cexCodeC3 = true ∧
      (validate_sketch_safety cexCodeC3).2 = ("Contains dangerous keyword: ".toList) ++ k :=
  forbidden_keyword_fails cexCodeC3 ⟨ "pinMode(0".toList, by decide, by decide⟩

/-- C5 counterexample: `whileCondCode` has exactly one matched while
region; its brace-delimited body contains neither "delay" nor "millis"
(case-insensitively), yet the validator passes the code, because the
source checks the whole matched region -- including the parenthesised
condition, where `millis` sits here -- rather than the body. -/
theorem while_scan_misses_condition_primitive :
    whileMatches whileCondCode = [ whileCondRegion] ∧
    whileCondRegion = ("while (millis < 100) \x7b".toList) ++ whileCondBody ++ ("\x7d".toList) ∧
    infixOfB ("delay".toList) (toLowerL whileCondBody) = false ∧
    infixOfB ("millis".toList) (toLowerL whileCondBody) = false ∧
    validate_sketch_safety whileCondCode = (true, "Safe".toList) := by decide

/-- C5 amended: the unbounded-loop scan fails the validator when some
matched while region contains neither "delay" nor "millis" anywhere in
the whole region (condition and body together, case-insensitively), and
a region containing either primitive anywhere passes that scan. -/
theorem while_region_scan_spec (code : List Char) :
    ((∃ m ∈ whileMatches code, whileScanBad m = true) →
        (validate_sketch_safety code).1 = false) ∧
    (∀ m ∈ whileMatches code,
        (infixOfB ("delay".toList) (toLowerL m) = true ∨
         infixOfB ("millis".toList) (toLowerL m) = true) →
        whileScanBad m = false) := by
  constructor
  · intro h
    unfold validate_sketch_safety
    cases hk : keywordFail code with
    | some r => rfl
    | none =>
      cases hst : structureFail code with
      | some r => rfl
      | none =>
        cases hl : lineFail code with
        | some r => rfl
        | none =>
          have hw : whileFail code = some ("Contains while loop without delay (potential hang)".toList) := by
            unfold whileFail
            have : (whileMatches code).any whileScanBad = true := by
              rw [List.any_eq_true]
              obtain ⟨m, hm, hbad⟩ := h
              exact ⟨m, hm, hbad⟩
            rw [this]
            rfl
          rw [hw]
  · intro m _ h
    unfold whileScanBad
    rcases h with h | h <;> rw [h] <;> simp

/-- C5 amended witness: a while region with no primitive at all fails the
validator. -/
theorem while_region_scan_spec_witness :
    (validate_sketch_safety whileBadCode).1 = false :=
  (while_region_scan_spec whileBadCode).1
    ⟨ "while (x) \x7b y = 1; \x7d".toList, by decide, by decide⟩

/-- C6: code that is over the line budget by at least one line always
gets a fail verdict, and the line-count check itself accepts any code at
or under the budget (the bound is inclusive at exactly 100 lines). -/
theorem line_budget_boundary (code : List Char) :
    (MAX_SKETCH_LINES < pyLineCount code → (validate_sketch_safety code).1 = false) ∧
    (pyLineCount code ≤ MAX_SKETCH_LINES → lineFail code = none) := by
  constructor
  · intro h
    unfold validate_sketch_safety
    cases hk : keywordFail code with
    | some r => rfl
    | none =>
      cases hst : structureFail code with
      | some r => rfl
      | none =>
        have hl : lineFail code =
            some (("Too many lines: ".toList) ++ (toString (pyLineCount code)).toList ++
              (" (max: ".toList) ++ (toString MAX_SKETCH_LINES).toList ++ (")".toList)) := by
          unfold lineFail
          rw [if_pos h]
        rw [hl]
  · intro h
    unfold lineFail
    rw [if_neg (Nat.not_lt.mpr h)]

set_option maxRecDepth 8000 in
/-- C6 witness: 101 lines fail validation; exactly 100 lines pass the
line-count check. -/
theorem line_budget_boundary_witness :
    (validate_sketch_safety overBudgetCode).1 = false ∧
    lineFail atBudgetCode = none :=
  ⟨(line_budget_boundary overBudgetCode).1 (by decide),
   (line_budget_boundary atBudgetCode).2 (by decide)⟩

/-- C9: both generation clients return an absence value on every failure
mode of the backend call (non-success status, timeout, transport error,
malformed body -- all caught by their try/except wrappers) and the raw
response text on success; neither propagates an exception, which the
embedding renders by their being total functions of the call outcome. -/
theorem clients_absent_on_failure (r : OllamaOutcome) (q : OpenAIOutcome) :
    (ollamaFailed r = true → query_ollama r = none) ∧
    (∀ f, r = OllamaOutcome.ok f → query_ollama r = some (f.getD [])) ∧
    (openaiFailed q = true → query_openai q = none) ∧
    (∀ c, q = OpenAIOutcome.ok c → query_openai q = some c) := by
  cases r <;> cases q <;>
    simp [query_ollama, query_openai, ollamaFailed, openaiFailed]

/-- C9 witness: a transport error on the local backend and a raised error
on the remote backend both yield absence. -/
theorem clients_absent_on_failure_witness :
    query_ollama OllamaOutcome.netError = none ∧
    query_openai OpenAIOutcome.apiError = none :=
  ⟨(clients_absent_on_failure OllamaOutcome.netError OpenAIOutcome.apiError).1 rfl,
   (clients_absent_on_failure OllamaOutcome.netError OpenAIOutcome.apiError).2.2.1 rfl⟩

/-- C10: a backend success carrying the empty string, or a nonempty
success whose extraction is empty, makes the cycle behave exactly like a
transient generation failure: the result equals that of a cycle whose
backend returned absence, independently of the validator (so the empty
artifact is never validated), nothing is persisted and the counter is
unchanged. -/
theorem empty_generation_like_failure (raw : List Char) (d : Bool) (n : Nat)
    (v v' : List Char → Bool × List Char)
    (h : raw = [] ∨ extract_code_from_markdown raw = []) :
    runCycleWith v (some raw) d n = runCycleWith v' none d n ∧
    (runCycleWith v (some raw) d n).record = none ∧
    (runCycleWith v (some raw) d n).counter = n := by
  have hgen : generate_sketch_with_llm (some raw) = none ∨
      generate_sketch_with_llm (some raw) = some [] := by
    rcases h with h | h
    · subst h
      left
      rfl
    · cases hre : raw.isEmpty with
      | true =>
        left
        simp [generate_sketch_with_llm, hre]
      | false =>
        right
        simp [generate_sketch_with_llm, hre, h]
  unfold runCycleWith
  rcases hgen with hg | hg <;> rw [hg] <;> simp [generate_sketch_with_llm]

/-- C10 witness: an empty backend success at counter 2 behaves like an
absent one. -/
theorem empty_generation_like_failure_witness :
    runCycleWith validate_sketch_safety (some []) true 2 =
      runCycleWith validate_sketch_safety none true 2 ∧
    (runCycleWith validate_sketch_safety (some []) true 2).record = none ∧
    (runCycleWith validate_sketch_safety (some []) true 2).counter = 2 :=
  empty_generation_like_failure [] true 2 validate_sketch_safety
    validate_sketch_safety (Or.inl rfl)

/-! Lemmas about `findSub` (first-occurrence search). -/

theorem isPre_iff (a b : List Char) : a.isPrefixOf b = true ↔ a <+: b :=
  List.isPrefixOf_iff_prefix

theorem findSub_some_pre (pat s : List Char) :
    ∀ i : Nat, findSub pat s = some i → pat <+: s.drop i := by
  induction s with
  | nil =>
    intro i h
    simp only [findSub] at h
    split at h
    · next hp =>
      cases h
      simpa using (isPre_iff pat []).mp hp
    · cases h
  | cons c t ih =>
    intro i h
    simp only [findSub] at h
    split at h
    · next hp =>
      cases h
      simpa using (isPre_iff pat ( c :: t)).mp hp
    · next hp =>
      rw [Option.map_eq_some'] at h
      obtain ⟨j, hj, hij⟩ := h
      subst hij
      simpa using ih j hj

theorem findSub_isSome_of_pre (pat s : List Char) :
    ∀ j : Nat, pat <+: s.drop j → (findSub pat s).isSome := by
  induction s with
  | nil =>
    intro j h
    have hp : pat = [] := List.prefix_nil.mp (by simpa using h)
    subst hp
    simp [findSub]
  | cons c t ih =>
    intro j h
    simp only [findSub]
    split
    · simp
    · next hp =>
      cases j with
      | zero =>
        exact absurd ((isPre_iff pat ( c :: t)).mpr (by simpa using h))
          (by simpa using hp)
      | succ j =>
        have := ih j (by simpa using h)
        simpa using this

theorem findSub_min (pat s : List Char) :
    ∀ i : Nat, findSub pat s = some i → ∀ j : Nat, j < i → ¬ pat <+: s.drop j := by
  induction s with
  | nil =>
    intro i h j hj
    simp only [findSub] at h
    split at h
    · cases h
      omega
    · cases h
  | cons c t ih =>
    intro i h j hj hpre
    simp only [findSub] at h
    split at h
    · cases h
      omega
    · next hp =>
      rw [Option.map_eq_some'] at h
      obtain ⟨i', hi', hii⟩ := h
      subst hii
      cases j with
      | zero =>
        exact absurd ((isPre_iff pat ( c :: t)).mpr (by simpa using hpre))
          (by simpa using hp)
      | succ j =>
        exact ih i' hi' j (by omega) (by simpa using hpre)

theorem findSub_le (pat s : List Char) (i : Nat) (hp : pat ≠ [])
    (h : findSub pat s = some i) : i + pat.length ≤ s.length := by
  have h1 := findSub_some_pre pat s i h
  have h2 : pat.length ≤ (s.drop i).length := h1.length_le
  rw [List.length_drop] at h2
  have h3 : 0 < pat.length := List.length_pos.mpr hp
  omega

/-! Lemmas about `captureSearch` (the lazy capture). -/

theorem nlTicks_ne : nlTicks ≠ [] := by decide

theorem nlTicks_len : nlTicks.length = 4 := by decide

theorem captureSearch_some (s cap rest : List Char)
    (h : captureSearch s = some (cap, rest)) :
    ∃ i, findSub nlTicks s = some i ∧ cap = s.take i ∧ rest = s.drop (i + 4) := by
  unfold captureSearch at h
  split at h
  · next i hi =>
    injection h with h'
    injection h' with h1 h2
    exact ⟨i, hi, h1.symm, h2.symm⟩
  · cases h

theorem captureSearch_rest_lt (s cap rest : List Char)
    (h : captureSearch s = some (cap, rest)) : rest.length < s.length := by
  obtain ⟨i, hf, _, hrest⟩ := captureSearch_some s cap rest h
  have hle := findSub_le nlTicks s i nlTicks_ne hf
  rw [nlTicks_len] at hle
  subst hrest
  rw [List.length_drop]
  omega

theorem captureSearch_cap_no (s cap rest : List Char)
    (h : captureSearch s = some (cap, rest)) : ¬ nlTicks <:+: cap := by
  obtain ⟨i, hf, hcap, _⟩ := captureSearch_some s cap rest h
  subst hcap
  intro hinf
  obtain ⟨pre, suf, hps⟩ := hinf
  have h1 : (s.take i).drop pre.length = nlTicks ++ suf := by
    rw [← hps, List.append_assoc]
    exact List.drop_left pre (nlTicks ++ suf)
  have h2 : nlTicks <+: (s.take i).drop pre.length := by
    rw [h1]
    exact List.prefix_append nlTicks suf
  have hlen : pre.length + 4 + suf.length = (s.take i).length := by
    rw [← hps]
    simp [List.length_append, nlTicks_len]
    omega
  have htk : (s.take i).length ≤ i := by
    rw [List.length_take]
    omega
  rw [List.drop_take] at h2
  have h3 := ( List.prefix_take_iff.mp h2).1
  exact findSub_min nlTicks s i hf pre.length (by omega) h3

theorem captureSearch_has (s cap rest : List Char)
    (h : captureSearch s = some (cap, rest)) : nlTicks <:+: s := by
  obtain ⟨i, hf, _, _⟩ := captureSearch_some s cap rest h
  exact (List.IsPrefix.isInfix (findSub_some_pre nlTicks s i hf)).trans
    (List.IsSuffix.isInfix (List.drop_suffix i s))

theorem captureSearch_rest_suffix (s cap rest : List Char)
    (h : captureSearch s = some (cap, rest)) : rest <:+ s := by
  obtain ⟨i, _, _, hrest⟩ := captureSearch_some s cap rest h
  subst hrest
  exact List.drop_suffix (i + 4) s

theorem captureSearch_isSome_append (s w : List Char)
    (h : (captureSearch s).isSome) : (captureSearch (s ++ w)).isSome := by
  obtain ⟨⟨cap, rest⟩, hc⟩ := Option.isSome_iff_exists.mp h
  obtain ⟨i, hf, _, _⟩ := captureSearch_some s cap rest hc
  have h1 := findSub_some_pre nlTicks s i hf
  have hle : i ≤ s.length := by
    have := findSub_le nlTicks s i nlTicks_ne hf
    omega
  have h2 : nlTicks <+: (s ++ w).drop i := by
    rw [List.drop_append_of_le_length hle]
    exact h1.trans (List.prefix_append (s.drop i) w)
  have h3 := findSub_isSome_of_pre nlTicks (s ++ w) i h2
  obtain ⟨i', hi'⟩ := Option.isSome_iff_exists.mp h3
  simp [captureSearch, hi']

/-! Lemmas about the backtracking layers of the code-block matcher. -/

theorem tryNl_some (s : List Char) (k : Nat) (p : List Char × List Char)
    (h : tryNl s k = some p) :
    ∃ r, s.drop k = '\n' :: r ∧ captureSearch r = some p := by
  unfold tryNl at h
  split at h
  · next r heq => exact ⟨r, heq, h⟩
  · cases h

theorem tryNl_isSome_append (s w : List Char) (k : Nat)
    (h : (tryNl s k).isSome) : (tryNl (s ++ w) k).isSome := by
  obtain ⟨p, hp⟩ := Option.isSome_iff_exists.mp h
  obtain ⟨r, hdrop, hc⟩ := tryNl_some s k p hp
  have hk : k ≤ s.length := by
    by_contra hk2
    rw [List.drop_eq_nil_of_le (by omega)] at hdrop
    cases hdrop
  have hd2 : (s ++ w).drop k = '\n' :: (r ++ w) := by
    rw [List.drop_append_of_le_length hk, hdrop]
    rfl
  have hcs : (captureSearch (r ++ w)).isSome :=
    captureSearch_isSome_append r w (by simp [hc])
  unfold tryNl
  rw [hd2]
  exact hcs

theorem oOr_isSome (a b : Option (List Char × List Char)) :
    (oOr a b).isSome = (a.isSome || b.isSome) := by
  cases a <;> simp [oOr]

theorem oOr_eq_some (a b : Option (List Char × List Char)) (p : List Char × List Char)
    (h : oOr a b = some p) : a = some p ∨ b = some p := by
  cases a with
  | some x => left; simpa [oOr] using h
  | none => right; simpa [oOr] using h

theorem tryKs_some (s : List Char) :
    ∀ (K : Nat) (p : List Char × List Char), tryKs s K = some p →
      ∃ k, k ≤ K ∧ tryNl s k = some p := by
  intro K
  induction K with
  | zero => exact fun p h => ⟨0, Nat.le_refl 0, h⟩
  | succ K ih =>
    intro p h
    unfold tryKs at h
    rcases oOr_eq_some _ _ _ h with h1 | h1
    · exact ⟨K + 1, Nat.le_refl _, h1⟩
    · obtain ⟨k, hk, h'⟩ := ih p h1
      exact ⟨k, by omega, h'⟩

theorem tryKs_isSome_of (s : List Char) (K k : Nat) (hk : k ≤ K)
    (h : (tryNl s k).isSome) : (tryKs s K).isSome := by
  induction K with
  | zero =>
    have hk0 : k = 0 := by omega
    subst hk0
    simpa [tryKs] using h
  | succ K ih =>
    unfold tryKs
    rw [oOr_isSome]
    by_cases hk2 : k = K + 1
    · subst hk2
      simp [h]
    · have hk3 : k ≤ K := by omega
      simp [ih hk3]

theorem wsTakeLen_append_le (s w : List Char) :
    wsTakeLen s ≤ wsTakeLen (s ++ w) := by
  induction s with
  | nil => simp [wsTakeLen]
  | cons c t ih =>
    have h1 : wsTakeLen ( c :: t) = if isWs c then wsTakeLen t + 1 else 0 := rfl
    have h2 : wsTakeLen ( c :: (t ++ w)) = if isWs c then wsTakeLen (t ++ w) + 1 else 0 := rfl
    rw [List.cons_append, h1, h2]
    by_cases hc : isWs c
    · rw [if_pos hc, if_pos hc]
      exact Nat.succ_le_succ ih
    · rw [if_neg hc, if_neg hc]

theorem matchWs_some (s : List Char) (p : List Char × List Char)
    (h : matchWs s = some p) : ∃ k, tryNl s k = some p := by
  obtain ⟨k, _, h'⟩ := tryKs_some s (wsTakeLen s) p h
  exact ⟨k, h'⟩

theorem matchWs_isSome_append (s w : List Char)
    (h : (matchWs s).isSome) : (matchWs (s ++ w)).isSome := by
  obtain ⟨p, hp⟩ := Option.isSome_iff_exists.mp h
  obtain ⟨k, hk, h'⟩ := tryKs_some s (wsTakeLen s) p hp
  have h1 : (tryNl (s ++ w) k).isSome := tryNl_isSome_append s w k (by simp [h'])
  exact tryKs_isSome_of (s ++ w) (wsTakeLen (s ++ w)) k
    (Nat.le_trans hk (wsTakeLen_append_le s w)) h1

theorem afterTicks_some (s : List Char) (p : List Char × List Char)
    (h : afterTicks s = some p) : ∃ u, u <:+ s ∧ matchWs u = some p := by
  unfold afterTicks at h
  rcases oOr_eq_some _ _ _ h with h1 | h1
  · split at h1
    · exact ⟨s.drop 3, List.drop_suffix 3 s, h1⟩
    · cases h1
  rcases oOr_eq_some _ _ _ h1 with h2 | h2
  · split at h2
    · exact ⟨s.drop 1, List.drop_suffix 1 s, h2⟩
    · cases h2
  rcases oOr_eq_some _ _ _ h2 with h3 | h3
  · split at h3
    · exact ⟨s.drop 7, List.drop_suffix 7 s, h3⟩
    · cases h3
  · exact ⟨s, List.suffix_refl s, h3⟩

theorem ticks_len : ticks.length = 3 := by decide

theorem afterTicks_isSome_append (s w : List Char)
    (h : (afterTicks s).isSome) : (afterTicks (s ++ w)).isSome := by
  obtain ⟨p, hp⟩ := Option.isSome_iff_exists.mp h
  unfold afterTicks at hp
  unfold afterTicks
  rw [oOr_isSome, oOr_isSome, oOr_isSome]
  rcases oOr_eq_some _ _ _ hp with h1 | h1
  · split at h1
    · next hcond =>
      have hpre : ("cpp".toList) <+: s := (isPre_iff _ _).mp hcond
      have hlen : 3 ≤ s.length := by
        have := hpre.length_le
        simpa using this
      have hcond' : ("cpp".toList).isPrefixOf (s ++ w) = true :=
        (isPre_iff _ _).mpr (hpre.trans (List.prefix_append s w))
      have hms : (matchWs (s.drop 3 ++ w)).isSome :=
        matchWs_isSome_append (s.drop 3) w (by rw [h1]; rfl)
      have hb : (if ("cpp".toList).isPrefixOf (s ++ w) = true
          then matchWs ((s ++ w).drop 3) else none).isSome = true := by
        rw [if_pos hcond', List.drop_append_of_le_length hlen]
        exact hms
      rw [hb]
      rfl
    · cases h1
  rcases oOr_eq_some _ _ _ h1 with h2 | h2
  · split at h2
    · next hcond =>
      have hpre : ("c".toList) <+: s := (isPre_iff _ _).mp hcond
      have hlen : 1 ≤ s.length := by
        have := hpre.length_le
        simpa using this
      have hcond' : ("c".toList).isPrefixOf (s ++ w) = true :=
        (isPre_iff _ _).mpr (hpre.trans (List.prefix_append s w))
      have hms : (matchWs (s.drop 1 ++ w)).isSome :=
        matchWs_isSome_append (s.drop 1) w (by rw [h2]; rfl)
      have hb : (if ("c".toList).isPrefixOf (s ++ w) = true
          then matchWs ((s ++ w).drop 1) else none).isSome = true := by
        rw [if_pos hcond', List.drop_append_of_le_length hlen]
        exact hms
      rw [hb]
      simp
    · cases h2
  rcases oOr_eq_some _ _ _ h2 with h3 | h3
  · split at h3
    · next hcond =>
      have hpre : ("arduino".toList) <+: s := (isPre_iff _ _).mp hcond
      have hlen : 7 ≤ s.length := by
        have := hpre.length_le
        simpa using this
      have hcond' : ("arduino".toList).isPrefixOf (s ++ w) = true :=
        (isPre_iff _ _).mpr (hpre.trans (List.prefix_append s w))
      have hms : (matchWs (s.drop 7 ++ w)).isSome :=
        matchWs_isSome_append (s.drop 7) w (by rw [h3]; rfl)
      have hb : (if ("arduino".toList).isPrefixOf (s ++ w) = true
          then matchWs ((s ++ w).drop 7) else none).isSome = true := by
        rw [if_pos hcond', List.drop_append_of_le_length hlen]
        exact hms
      rw [hb]
      simp
    · cases h3
  · have hms : (matchWs (s ++ w)).isSome := matchWs_isSome_append s w (by rw [h3]; rfl)
    rw [hms]
    simp

/-! Lemmas about `matchAt` (the anchored code-block pattern). -/

theorem matchAt_chain (s cap rest : List Char)
    (h : matchAt s = some (cap, rest)) :
    ∃ v, v <:+ s ∧ captureSearch v = some (cap, rest) := by
  unfold matchAt at h
  split at h
  · obtain ⟨u, hu, hm⟩ := afterTicks_some (s.drop 3) (cap, rest) h
    obtain ⟨k, hk⟩ := matchWs_some u (cap, rest) hm
    obtain ⟨r, hdrop, hc⟩ := tryNl_some u k (cap, rest) hk
    refine ⟨r, ?_, hc⟩
    have h2 : (u.drop k).drop 1 = u.drop (k + 1) := by
      rw [List.drop_drop]
    rw [hdrop] at h2
    simp only [List.drop_succ_cons, List.drop_zero] at h2
    have hr : r <:+ u := by
      rw [h2]
      exact List.drop_suffix (k + 1) u
    exact hr.trans (hu.trans (List.drop_suffix 3 s))
  · cases h

theorem matchAt_cap_no (s cap rest : List Char)
    (h : matchAt s = some (cap, rest)) : ¬ nlTicks <:+: cap := by
  obtain ⟨v, _, hc⟩ := matchAt_chain s cap rest h
  exact captureSearch_cap_no v cap rest hc

theorem matchAt_rest_lt (s cap rest : List Char)
    (h : matchAt s = some (cap, rest)) : rest.length < s.length := by
  obtain ⟨v, hv, hc⟩ := matchAt_chain s cap rest h
  have h1 := captureSearch_rest_lt v cap rest hc
  have h2 := hv.length_le
  omega

theorem matchAt_has_nlTicks (s cap rest : List Char)
    (h : matchAt s = some (cap, rest)) : nlTicks <:+: s := by
  obtain ⟨v, hv, hc⟩ := matchAt_chain s cap rest h
  exact (captureSearch_has v cap rest hc).trans (List.IsSuffix.isInfix hv)

theorem matchAt_has_ticks (s cap rest : List Char)
    (h : matchAt s = some (cap, rest)) : ticks <:+: s := by
  unfold matchAt at h
  split at h
  · next hcond => exact List.IsPrefix.isInfix ((isPre_iff _ _).mp hcond)
  · cases h

theorem matchAt_isSome_append (s w : List Char)
    (h : (matchAt s).isSome) : (matchAt (s ++ w)).isSome := by
  obtain ⟨⟨cap, rest⟩, hp⟩ := Option.isSome_iff_exists.mp h
  have hh := hp
  unfold matchAt at hp
  split at hp
  · next hcond =>
    have hpre : ticks <+: s := (isPre_iff _ _).mp hcond
    have hlen : 3 ≤ s.length := by
      have := hpre.length_le
      rw [ticks_len] at this
      omega
    have h2 : (afterTicks (s.drop 3 ++ w)).isSome :=
      afterTicks_isSome_append (s.drop 3) w (by rw [hp]; rfl)
    have hcond' : ticks.isPrefixOf (s ++ w) = true :=
      (isPre_iff _ _).mpr (hpre.trans (List.prefix_append s w))
    unfold matchAt
    rw [if_pos hcond', List.drop_append_of_le_length hlen]
    exact h2
  · cases hp

theorem matchAt_none_of_no_ticks (s : List Char) (h : ¬ ticks <:+: s) :
    matchAt s = none := by
  unfold matchAt
  rw [if_neg]
  intro hc
  exact h (List.IsPrefix.isInfix ((isPre_iff _ _).mp hc))

theorem matchAt_nil : matchAt [] = none := by decide

/-! Lemmas about the `findall` scan. -/

theorem findallF_succ (fuel : Nat) (s : List Char) :
    findallF (fuel + 1) s =
      match matchAt s with
      | some (cap, rest) => cap :: findallF fuel rest
      | none =>
        match s with
        | [] => []
        | _ :: t => findallF fuel t := rfl

theorem findallF_nil_iff (fuel : Nat) :
    ∀ s : List Char, s.length ≤ fuel →
      (findallF fuel s = [] ↔ ∀ j : Nat, matchAt (s.drop j) = none) := by
  induction fuel with
  | zero =>
    intro s hs
    have hnil : s = [] := List.length_eq_zero.mp (by omega)
    subst hnil
    simp [findallF, matchAt_nil]
  | succ fuel ih =>
    intro s hs
    constructor
    · intro h j
      rw [findallF_succ] at h
      split at h
      · cases h
      · next hma =>
        cases s with
        | nil => simp [matchAt_nil]
        | cons c t =>
          cases j with
          | zero => simpa using hma
          | succ j =>
            have ht := (ih t (by simpa using Nat.le_of_succ_le_succ hs)).mp h
            simpa using ht j
    · intro h
      rw [findallF_succ]
      split
      · next cap rest hma =>
        have := h 0
        simp [hma] at this
      · cases s with
        | nil => rfl
        | cons c t =>
          refine (ih t (by simpa using Nat.le_of_succ_le_succ hs)).mpr ?_
          intro j
          have := h (j + 1)
          simpa using this

theorem findallF_mem (fuel : Nat) :
    ∀ (s : List Char) (cap : List Char), cap ∈ findallF fuel s →
      ∃ v rest, captureSearch v = some (cap, rest) := by
  induction fuel with
  | zero =>
    intro s cap h
    simp [findallF] at h
  | succ fuel ih =>
    intro s cap h
    rw [findallF_succ] at h
    split at h
    · next cap' rest hma =>
      rcases List.mem_cons.mp h with h1 | h1
      · subst h1
        obtain ⟨v, _, hc⟩ := matchAt_chain s cap rest hma
        exact ⟨v, rest, hc⟩
      · exact ih rest cap h1
    · cases s with
      | nil => simp at h
      | cons c t => exact ih t cap h

theorem pyFindall_nil_iff (s : List Char) :
    pyFindall s = [] ↔ ∀ j : Nat, matchAt (s.drop j) = none :=
  findallF_nil_iff s.length s (Nat.le_refl _)

theorem pyFindall_nil_of_no_ticks (s : List Char) (h : ¬ ticks <:+: s) :
    pyFindall s = [] := by
  rw [pyFindall_nil_iff]
  intro j
  apply matchAt_none_of_no_ticks
  intro hinf
  exact h (hinf.trans (List.IsSuffix.isInfix (List.drop_suffix j s)))

theorem pyFindall_nil_of_no_nlTicks (s : List Char) (h : ¬ nlTicks <:+: s) :
    pyFindall s = [] := by
  rw [pyFindall_nil_iff]
  intro j
  cases hma : matchAt (s.drop j) with
  | none => rfl
  | some p =>
    obtain ⟨cap, rest⟩ := p
    exact (h ((matchAt_has_nlTicks _ cap rest hma).trans
      (List.IsSuffix.isInfix (List.drop_suffix j s)))).elim

theorem pyFindall_mem_no_nlTicks (s cap : List Char) (h : cap ∈ pyFindall s) :
    ¬ nlTicks <:+: cap := by
  obtain ⟨v, rest, hc⟩ := findallF_mem s.length s cap h
  exact captureSearch_cap_no v cap rest hc

theorem pyFindall_drop_nil (s : List Char) (h : pyFindall s = []) (j : Nat) :
    pyFindall (s.drop j) = [] := by
  rw [pyFindall_nil_iff] at h ⊢
  intro j'
  rw [List.drop_drop]
  exact h (j + j')

theorem pyFindall_append_nil (a b : List Char) (h : pyFindall (a ++ b) = []) :
    pyFindall a = [] := by
  rw [pyFindall_nil_iff] at h ⊢
  intro j
  by_cases hj : j ≤ a.length
  · cases hma : matchAt (a.drop j) with
    | none => rfl
    | some p =>
      have h1 : (matchAt (a.drop j ++ b)).isSome :=
        matchAt_isSome_append (a.drop j) b (by rw [hma]; rfl)
      rw [← List.drop_append_of_le_length hj, h j] at h1
      cases h1
  · rw [List.drop_eq_nil_of_le (by omega)]
    exact matchAt_nil

/-! Lemmas about `pyStrip`. -/

theorem dropWhile_head_false (p : Char → Bool) (l : List Char) :
    ∀ a, (l.dropWhile p).head? = some a → p a = false := by
  induction l with
  | nil =>
    intro a h
    simp at h
  | cons c t ih =>
    intro a h
    rw [List.dropWhile_cons] at h
    split at h
    · exact ih a h
    · next hc =>
      simp at h
      subst h
      simpa using hc

theorem dropWhile_self_of_head (p : Char → Bool) (l : List Char)
    (h : ∀ a, l.head? = some a → p a = false) : l.dropWhile p = l := by
  cases l with
  | nil => rfl
  | cons c t =>
    rw [List.dropWhile_cons, if_neg]
    simp [h c rfl]

theorem dropWhile_idem (p : Char → Bool) (l : List Char) :
    (l.dropWhile p).dropWhile p = l.dropWhile p :=
  dropWhile_self_of_head p _ (dropWhile_head_false p l)

theorem stripLeft_head_false (s : List Char) :
    ∀ a, (stripLeft s).head? = some a → isWs a = false :=
  dropWhile_head_false isWs s

theorem stripLeft_suffix (s : List Char) : stripLeft s <:+ s :=
  List.dropWhile_suffix isWs

theorem stripRight_pre (s : List Char) : stripRight s <+: s := by
  refine List.reverse_suffix.mp ?_
  unfold stripRight stripLeft
  rw [List.reverse_reverse]
  exact List.dropWhile_suffix isWs

theorem pyStrip_isInf (s : List Char) : pyStrip s <:+: s := by
  unfold pyStrip
  exact (List.IsPrefix.isInfix (stripRight_pre (stripLeft s))).trans
    (List.IsSuffix.isInfix (stripLeft_suffix s))

theorem head_eq_of_pre (u v : List Char) (h : u <+: v) (hu : u ≠ []) :
    u.head? = v.head? := by
  obtain ⟨t, rfl⟩ := h
  cases u with
  | nil => exact absurd rfl hu
  | cons c u' => rfl

theorem stripRight_idem (s : List Char) : stripRight (stripRight s) = stripRight s := by
  unfold stripRight stripLeft
  rw [List.reverse_reverse, dropWhile_idem]

theorem stripLeft_stripRight (s : List Char)
    (hh : ∀ a, s.head? = some a → isWs a = false) :
    stripLeft (stripRight s) = stripRight s := by
  apply dropWhile_self_of_head
  intro a ha
  by_cases hn : stripRight s = []
  · rw [hn] at ha
    simp at ha
  · have h1 : (stripRight s).head? = s.head? :=
      head_eq_of_pre (stripRight s) s (stripRight_pre s) hn
    rw [h1] at ha
    exact hh a ha

theorem pyStrip_idem (s : List Char) : pyStrip (pyStrip s) = pyStrip s := by
  unfold pyStrip
  rw [stripLeft_stripRight (stripLeft s) (stripLeft_head_false s)]
  exact stripRight_idem (stripLeft s)

/-- C7: `extract_code_from_markdown` returns the first fenced region's
stripped capture when the fence pattern matches anywhere, returns the
whole stripped input when it matches nowhere, and a text without the
fence delimiter never matches; it is a total function, so it is
deterministic and always yields a (possibly empty) string. -/
theorem extractor_first_block_or_whole (text : List Char) :
    (∀ m ms, pyFindall text = m :: ms →
        extract_code_from_markdown text = pyStrip m) ∧
    (pyFindall text = [] → extract_code_from_markdown text = pyStrip text) ∧
    (¬ ticks <:+: text → pyFindall text = []) := by
  refine ⟨?_, ?_, pyFindall_nil_of_no_ticks text⟩
  · intro m ms h
    unfold extract_code_from_markdown
    rw [h]
  · intro h
    unfold extract_code_from_markdown
    rw [h]

/-- C7 witness: on a reply with one fenced block the extractor yields the
block body; on a fenceless reply it yields the stripped input. -/
theorem extractor_first_block_or_whole_witness :
    extract_code_from_markdown fencedText = pyStrip ("int x;".toList) ∧
    extract_code_from_markdown plainText = pyStrip plainText :=
  ⟨(extractor_first_block_or_whole fencedText).1 ("int x;".toList) [] (by decide),
   (extractor_first_block_or_whole plainText).2.1 (by decide)⟩

/-- C8: the extractor is idempotent: re-extracting an extracted artifact
returns it unchanged. -/
theorem extractor_idem (s : List Char) :
    extract_code_from_markdown (extract_code_from_markdown s) =
      extract_code_from_markdown s := by
  cases h : pyFindall s with
  | nil =>
    have h1 : extract_code_from_markdown s = pyStrip s := by
      unfold extract_code_from_markdown
      rw [h]
    rw [h1]
    obtain ⟨pre, suf, hps⟩ := pyStrip_isInf s
    have h2 : pyFindall (pyStrip s ++ suf) = [] := by
      have h3 : s.drop pre.length = pyStrip s ++ suf := by
        conv_lhs => rw [← hps, List.append_assoc]
        exact List.drop_left pre (pyStrip s ++ suf)
      rw [← h3]
      exact pyFindall_drop_nil s h pre.length
    have h4 : pyFindall (pyStrip s) = [] := pyFindall_append_nil _ suf h2
    unfold extract_code_from_markdown
    rw [h4]
    exact pyStrip_idem s
  | cons cap rest =>
    have h1 : extract_code_from_markdown s = pyStrip cap := by
      unfold extract_code_from_markdown
      rw [h]
    rw [h1]
    have hno : ¬ nlTicks <:+: cap :=
      pyFindall_mem_no_nlTicks s cap (by rw [h]; exact List.mem_cons_self cap rest)
    have hno2 : ¬ nlTicks <:+: pyStrip cap :=
      fun hc => hno (hc.trans (pyStrip_isInf cap))
    have h2 : pyFindall (pyStrip cap) = [] := pyFindall_nil_of_no_nlTicks _ hno2
    unfold extract_code_from_markdown
    rw [h2]
    exact pyStrip_idem cap
